import Mathlib

/-!
Verification of the two workshop notebooks (NLP content analysis and geospatial
analysis) against their natural-language description.  The Python code is embedded
shallowly: Python dicts become association lists, pandas/geopandas numeric columns
become lists of (name, value) pairs over ℚ, and the pre-trained library models
(spaCy `nlp`, the Hugging Face NER and sentiment pipelines, the tokenizer) are
abstract per-text functions supplied as parameters; a pipeline applied to a batch
of texts is its per-text function mapped over the batch, which is the documented
batch semantics of both libraries.
-/

namespace Workshop

/-- An article as the notebooks use it: a Python dict from string keys to string
values, modelled as an association list (lookup takes the first match). -/
abbrev Article := List (String × String)

/-- Python's `a.get(k)`: `some` value when the key is present, `none` otherwise. -/
def pyGet (a : Article) (k : String) : Option String :=
  (a.find? (fun kv => kv.1 == k)).map (fun kv => kv.2)

/-- Python truthiness of `a.get(k)`: `None` and the empty string are falsy. -/
def optTruthy : Option String → Bool
  | none => false
  | some s => !(s == "")

/-- Python's `a[k]` under a guard that already ensured the key is present. -/
def pyIndex (a : Article) (k : String) : String :=
  (pyGet a k).getD ""

/-! ## Text selection in the two `build_person_sentiment_df` definitions -/

/-- The spaCy `build_person_sentiment_df` text comprehension:
`texts = [a[text_key] for a in articles if a.get(text_key)]`. -/
def selTexts (key : String) (articles : List Article) : List String :=
  (articles.filter (fun a => optTruthy (pyGet a key))).map (fun a => pyIndex a key)

/-- The spaCy `build_person_sentiment_df` id comprehension:
`article_ids = [i for i, a in enumerate(articles) if a.get(text_key)]`. -/
def selIds (key : String) (articles : List Article) : List Nat :=
  (articles.enum.filter (fun p => optTruthy (pyGet p.2 key))).map (fun p => p.1)

/-- Python slicing `l[:max_records]`, applied only when `max_records is not None`. -/
def takeOpt (mr : Option Nat) (l : List α) : List α :=
  match mr with
  | none => l
  | some n => l.take n

/-- Text-selection step of the spaCy `build_person_sentiment_df`: collect every
non-empty text with its index, then slice both lists to `max_records` when that
argument is not `None`. -/
def spacySelect (articles : List Article) (key : String) (mr : Option Nat) :
    List String × List Nat :=
  (takeOpt mr (selTexts key articles), takeOpt mr (selIds key articles))

/-- Python truthiness of the `max_records` argument: `None` and `0` are falsy. -/
def mrTruthy : Option Nat → Bool
  | none => false
  | some n => !(n == 0)

/-- The numeric value of a truthy `max_records`. -/
def mrVal : Option Nat → Nat
  | none => 0
  | some n => n

/-- The collection loop of the Hugging Face `build_person_sentiment_df`:
`for i, art in enumerate(articles): if art.get(text_key): append text and id;
if max_records and len(texts) >= max_records: break`. -/
def hfSelectGo (key : String) (mr : Option Nat) :
    List (Nat × Article) → List String → List Nat → List String × List Nat
  | [], texts, ids => (texts, ids)
  | (i, a) :: rest, texts, ids =>
    if optTruthy (pyGet a key) then
      let texts := texts ++ [pyIndex a key]
      let ids := ids ++ [i]
      if mrTruthy mr && decide (mrVal mr ≤ texts.length) then (texts, ids)
      else hfSelectGo key mr rest texts ids
    else hfSelectGo key mr rest texts ids

/-- Text-selection step of the Hugging Face `build_person_sentiment_df`. -/
def hfSelect (articles : List Article) (key : String) (mr : Option Nat) :
    List String × List Nat :=
  hfSelectGo key mr articles.enum [] []

/-- The selected (index, text) pairs, used to relate the two selection steps. -/
def selPairs (key : String) (l : List (Nat × Article)) : List (Nat × String) :=
  (l.filter (fun p => optTruthy (pyGet p.2 key))).map (fun p => (p.1, pyIndex p.2 key))

theorem hfSelectGo_not_truthy (key : String) (mr : Option Nat) (hmr : mrTruthy mr = false) :
    ∀ (l : List (Nat × Article)) (ts : List String) (ids : List Nat),
      hfSelectGo key mr l ts ids =
        (ts ++ (selPairs key l).map Prod.snd, ids ++ (selPairs key l).map Prod.fst)
  | [], ts, ids => by simp [hfSelectGo, selPairs]
  | (i, a) :: rest, ts, ids => by
    by_cases h : optTruthy (pyGet a key) = true
    · simp only [hfSelectGo, h, if_pos, hmr, Bool.false_and, Bool.false_eq_true, if_neg,
        not_false_iff]
      rw [hfSelectGo_not_truthy key mr hmr rest]
      simp [selPairs, h, List.append_assoc]
    · simp only [hfSelectGo, h, if_neg, Bool.false_eq_true, not_false_iff]
      rw [hfSelectGo_not_truthy key mr hmr rest]
      simp [selPairs, h]

theorem hfSelectGo_pos (key : String) (n : Nat) (hn : 0 < n) :
    ∀ (l : List (Nat × Article)) (ts : List String) (ids : List Nat), ts.length < n →
      hfSelectGo key (some n) l ts ids =
        (ts ++ ((selPairs key l).map Prod.snd).take (n - ts.length),
         ids ++ ((selPairs key l).map Prod.fst).take (n - ts.length))
  | [], ts, ids, _ => by simp [hfSelectGo, selPairs]
  | (i, a) :: rest, ts, ids, hlen => by
    by_cases h : optTruthy (pyGet a key) = true
    · have hmr : mrTruthy (some n) = true := by
        simp [mrTruthy]; omega
      by_cases hbreak : n ≤ ts.length + 1
      · have hone : n - ts.length = 1 := by omega
        simp only [hfSelectGo, h, if_pos, hmr, Bool.true_and, List.length_append,
          List.length_singleton, mrVal, hbreak, decide_eq_true_eq, if_pos]
        simp [selPairs, h, hone]
      · have hrec : ts.length + 1 < n := by omega
        simp only [hfSelectGo, h, if_pos, hmr, Bool.true_and, List.length_append,
          List.length_singleton, mrVal, decide_eq_true_eq, if_neg hbreak]
        rw [hfSelectGo_pos key n hn rest (ts ++ [pyIndex a key]) (ids ++ [i])
          (by simpa using hrec)]
        have htake : n - ts.length = (n - (ts.length + 1)) + 1 := by omega
        simp [selPairs, h, List.append_assoc, htake, List.take_succ_cons]
    · simp only [hfSelectGo, h, if_neg, Bool.false_eq_true, not_false_iff]
      rw [hfSelectGo_pos key n hn rest ts ids hlen]
      simp [selPairs, h]

theorem enumFrom_filter_snd_map {β : Type _} (q : Article → Bool) (g : Article → β) :
    ∀ (i : Nat) (l : List Article),
      ((List.enumFrom i l).filter (fun p => q p.2)).map (fun p => g p.2) =
        (l.filter q).map g
  | _, [] => rfl
  | i, a :: l => by
    by_cases h : q a = true
    · simp [List.filter_cons, h, enumFrom_filter_snd_map q g (i + 1) l]
    · simp [List.filter_cons, h, enumFrom_filter_snd_map q g (i + 1) l]

theorem selPairs_snd (key : String) (articles : List Article) :
    (selPairs key articles.enum).map Prod.snd = selTexts key articles := by
  unfold selPairs selTexts
  rw [List.map_map, List.enum]
  exact enumFrom_filter_snd_map (fun a => optTruthy (pyGet a key))
    (fun a => pyIndex a key) 0 articles

theorem selPairs_fst (key : String) (articles : List Article) :
    (selPairs key articles.enum).map Prod.fst = selIds key articles := by
  unfold selPairs selIds
  rw [List.map_map]
  rfl

/-- C2 (amended): the text-selection steps of the two `build_person_sentiment_df`
definitions produce the same texts and article ids for every article list,
text key, and `max_records` that is `None` or a positive integer. -/
theorem c2_selection_equivalent (articles : List Article) (key : String) (mr : Option Nat)
    (h : mr ≠ some 0) :
    hfSelect articles key mr = spacySelect articles key mr := by
  cases mr with
  | none =>
    rw [hfSelect, hfSelectGo_not_truthy key none rfl, spacySelect]
    simp [takeOpt, selPairs_snd, selPairs_fst]
  | some n =>
    have hn : 0 < n := Nat.pos_of_ne_zero (fun hz => h (by rw [hz]))
    rw [hfSelect, hfSelectGo_pos key n hn articles.enum [] [] (by simpa using hn),
      spacySelect]
    simp [takeOpt, selPairs_snd, selPairs_fst]

/-- C2 witness: the equivalence instantiated at a concrete article list and
`max_records = 1`. -/
theorem c2_selection_equivalent_witness :
    hfSelect [[("text", "x")], [("title", "t")]] "text" (some 1) =
      spacySelect [[("text", "x")], [("title", "t")]] "text" (some 1) :=
  c2_selection_equivalent _ _ _ (by decide)

/-- C2 counterexample: at `max_records = 0` the spaCy version returns empty lists
(slicing to zero records) while the Hugging Face version returns every non-empty
text, because `0` is falsy in its break condition `if max_records and ...`. -/
theorem c2_counterexample :
    hfSelect [[("text", "x")]] "text" (some 0) ≠ spacySelect [[("text", "x")]] "text" (some 0) := by
  decide

/-! ## The spaCy and Hugging Face model objects -/

/-- A spaCy entity: `ent.label_` and `ent.text`. -/
structure SpacyEnt where
  label_ : String
  text : String
deriving DecidableEq

/-- A spaCy token: `token.lemma_`, `token.is_stop`, `token.is_punct`. -/
structure SpacyTok where
  lemma_ : String
  is_stop : Bool
  is_punct : Bool
deriving DecidableEq

/-- A processed spaCy document: its tokens, entities and textblob polarity. -/
structure SpacyDoc where
  toks : List SpacyTok
  ents : List SpacyEnt
  polarity : ℚ
deriving DecidableEq

/-- `names = [ent.text for ent in doc.ents if ent.label_ == "PERSON"]`. -/
def personsOfDoc (doc : SpacyDoc) : List String :=
  (doc.ents.filter (fun e => e.label_ == "PERSON")).map (fun e => e.text)

theorem foldl_append_singleton {α β : Type _} (g : α → β) :
    ∀ (l : List α) (acc : List β),
      l.foldl (fun acc x => acc ++ [g x]) acc = acc ++ l.map g
  | [], acc => by simp
  | x :: l, acc => by
    simp [foldl_append_singleton g l (acc ++ [g x])]

/-- The spaCy `extract_people`: loop over `nlp.pipe(texts, ...)` appending each
document's PERSON names (`people_per_doc.append(names)`). -/
def spacyExtractPeople (nlp : String → SpacyDoc) (texts : List String) :
    List (List String) :=
  (texts.map nlp).foldl (fun acc doc => acc ++ [personsOfDoc doc]) []

/-- The spaCy `score_sentiment`: loop over `nlp.pipe(texts, ...)` appending
`doc._.blob.polarity`. -/
def scoreSentiment (nlp : String → SpacyDoc) (texts : List String) : List ℚ :=
  (texts.map nlp).foldl (fun acc doc => acc ++ [doc.polarity]) []

/-- A Hugging Face NER prediction: `e["entity_group"]` and `e["word"]`. -/
structure HfEntity where
  entity_group : String
  word : String
deriving DecidableEq

/-- Python's `s.strip()`: drop whitespace from both ends (written over the
character list so that it evaluates by kernel reduction). -/
def pyStrip (s : String) : String :=
  ⟨((s.data.dropWhile (fun c => c.isWhitespace)).reverse.dropWhile
      (fun c => c.isWhitespace)).reverse⟩

/-- The per-document reshaping in the Hugging Face `extract_people`:
`[e["word"].strip() for e in doc if e["entity_group"] == "PER" and len(e["word"].strip()) > 5]`. -/
def hfPersonsOfDoc (doc : List HfEntity) : List String :=
  (doc.filter (fun e => e.entity_group == "PER" && decide (5 < (pyStrip e.word).length))).map
    (fun e => pyStrip e.word)

/-- `if isinstance(texts, str): texts = [texts]` — a single string is wrapped. -/
def normalizeTexts : String ⊕ List String → List String
  | Sum.inl s => [s]
  | Sum.inr l => l

/-- Python `range(0, len(l), bs)` slicing `l[start:start+bs]`, written with a fuel
argument so that it evaluates by kernel reduction; `pyChunks` supplies the fuel. -/
def pyChunksGo (bs : Nat) : Nat → List α → List (List α)
  | 0, _ => []
  | fuel + 1, l =>
    if l.isEmpty || bs == 0 then []
    else l.take bs :: pyChunksGo bs fuel (l.drop bs)

/-- The batch slices `texts[start:start+bs]` for `start in range(0, len(texts), bs)`. -/
def pyChunks (bs : Nat) (l : List α) : List (List α) :=
  pyChunksGo bs l.length l

theorem pyChunksGo_succ (bs : Nat) (hbs : 0 < bs) :
    ∀ (fuel : Nat) (l : List α), l.length ≤ fuel →
      pyChunksGo bs (fuel + 1) l = pyChunksGo bs fuel l
  | 0, l, h => by
    have : l = [] := List.length_eq_zero.mp (Nat.le_zero.mp h)
    subst this
    simp [pyChunksGo]
  | fuel + 1, l, h => by
    by_cases hl : l.isEmpty
    · simp [pyChunksGo, hl]
    · have hdrop : (l.drop bs).length ≤ fuel := by
        simp only [List.length_drop]
        omega
      show (if l.isEmpty || bs == 0 then []
            else l.take bs :: pyChunksGo bs (fuel + 1) (l.drop bs)) =
          (if l.isEmpty || bs == 0 then []
            else l.take bs :: pyChunksGo bs fuel (l.drop bs))
      rw [pyChunksGo_succ bs hbs fuel (l.drop bs) hdrop]

theorem pyChunksGo_fuel (bs : Nat) (hbs : 0 < bs) :
    ∀ (d fuel : Nat) (l : List α), l.length ≤ fuel →
      pyChunksGo bs (fuel + d) l = pyChunksGo bs fuel l
  | 0, _, _, _ => rfl
  | d + 1, fuel, l, h => by
    have h1 : (fuel + (d + 1)) = (fuel + d) + 1 := by omega
    rw [h1, pyChunksGo_succ bs hbs (fuel + d) l (by omega),
      pyChunksGo_fuel bs hbs d fuel l h]

theorem pyChunks_cons (bs : Nat) (hbs : 0 < bs) (l : List α) (hl : ¬ l.isEmpty) :
    pyChunks bs l = l.take bs :: pyChunks bs (l.drop bs) := by
  obtain ⟨a, t, rfl⟩ : ∃ a t, l = a :: t := by
    cases l with
    | nil => simp at hl
    | cons a t => exact ⟨a, t, rfl⟩
  show pyChunksGo bs ((a :: t).length) (a :: t) = _
  simp only [List.length_cons, pyChunksGo, List.isEmpty_cons, Bool.false_or,
    beq_iff_eq]
  rw [if_neg (by omega)]
  congr 1
  have hle : ((a :: t).drop bs).length ≤ t.length := by
    simp only [List.length_drop, List.length_cons]
    omega
  obtain ⟨d, hd⟩ : ∃ d, t.length = ((a :: t).drop bs).length + d :=
    ⟨t.length - ((a :: t).drop bs).length, by omega⟩
  rw [pyChunks, ← pyChunksGo_fuel bs hbs d (((a :: t).drop bs).length) _ (le_refl _), ← hd]

theorem pyChunks_flatten (bs : Nat) (hbs : 0 < bs) :
    ∀ (l : List α), (pyChunks bs l).flatten = l
  | [] => rfl
  | a :: l => by
    rw [pyChunks_cons bs hbs (a :: l) (by simp), List.flatten_cons,
      pyChunks_flatten bs hbs ((a :: l).drop bs)]
    exact List.take_append_drop bs (a :: l)
termination_by l => l.length
decreasing_by
  simp only [List.length_drop, List.length_cons]
  omega

theorem pyChunks_mem_length (bs : Nat) (hbs : 0 < bs) :
    ∀ (l : List α), ∀ c ∈ pyChunks bs l, c.length ≤ bs
  | [] => by intro c hc; simp [pyChunks, pyChunksGo] at hc
  | a :: l => by
    intro c hc
    rw [pyChunks_cons bs hbs (a :: l) (by simp)] at hc
    rcases List.mem_cons.mp hc with h | h
    · subst h; simp [List.length_take]
    · exact pyChunks_mem_length bs hbs ((a :: l).drop bs) c h
termination_by l => l.length
decreasing_by
  simp only [List.length_drop, List.length_cons]
  omega

theorem foldl_append_blocks {α β : Type _} (g : α → List β) :
    ∀ (l : List α) (acc : List β),
      l.foldl (fun acc x => acc ++ g x) acc = acc ++ (l.map g).flatten
  | [], acc => by simp
  | x :: l, acc => by
    simp [foldl_append_blocks g l (acc ++ g x)]

/-- The Hugging Face `extract_people`: slice the (possibly wrapped) texts into
`batch_size` groups, run the NER pipeline on each slice with
`batch_size=len(batch)`, and append one PERSON list per document of the batch.
The pipeline applied to a batch is its per-text function `ner` mapped over it. -/
def hfExtractPeople (ner : String → List HfEntity) (texts0 : String ⊕ List String)
    (bs : Nat) : List (List String) :=
  (pyChunks bs (normalizeTexts texts0)).foldl
    (fun acc batch => acc ++ (batch.map ner).map hfPersonsOfDoc) []

/-- A Hugging Face sentiment prediction: `p["label"]` and `p["score"]`. -/
structure HfPred where
  label : String
  score : ℚ
deriving DecidableEq

/-- The signed window score of `_score_long_text`:
`p["score"] * (+1 if positive, -1 if negative, else 0)` on the lowered label. -/
def signedScore (p : HfPred) : ℚ :=
  p.score * (if p.label.toLower == "positive" then 1
             else if p.label.toLower == "negative" then -1 else 0)

/-- `np.mean` on rationals. The empty case never arises in the notebook: the
tokenizer returns at least one window for every text. -/
def npMean (l : List ℚ) : ℚ := l.sum / l.length

/-- `_score_long_text`: window the text with the tokenizer (`chunksOf`), run the
sentiment pipeline on the windows (per-window prediction `pred`), and return the
mean of the signed window scores. -/
def scoreLongText (chunksOf : String → List String) (pred : String → HfPred)
    (t : String) : ℚ :=
  npMean (((chunksOf t).map pred).map signedScore)

/-- `extract_sentiment`: wrap a single string, then `_score_long_text` per text. -/
def extractSentiment (chunksOf : String → List String) (pred : String → HfPred)
    (texts0 : String ⊕ List String) : List ℚ :=
  (normalizeTexts texts0).map (scoreLongText chunksOf pred)

theorem hfExtractPeople_eq_map (ner : String → List HfEntity)
    (texts0 : String ⊕ List String) (bs : Nat) (hbs : 0 < bs) :
    hfExtractPeople ner texts0 bs =
      (normalizeTexts texts0).map (fun t => hfPersonsOfDoc (ner t)) := by
  rw [hfExtractPeople, foldl_append_blocks, List.nil_append]
  rw [show (fun batch : List String => (batch.map ner).map hfPersonsOfDoc) =
      (fun batch : List String => batch.map (fun t => hfPersonsOfDoc (ner t))) by
    funext batch
    rw [List.map_map]
    rfl]
  rw [← List.map_flatten, pyChunks_flatten bs hbs]

/-- C8: the spaCy `extract_people`, `score_sentiment`, the Hugging Face
`extract_people` and `extract_sentiment` each return one result per input text,
the result at position i computed from the text at position i, and the two
Hugging Face functions treat a single string as a one-element list. -/
theorem c8_one_result_per_text (nlp : String → SpacyDoc) (ner : String → List HfEntity)
    (chunksOf : String → List String) (pred : String → HfPred)
    (texts : List String) (texts0 : String ⊕ List String) (s : String)
    (bs : Nat) (hbs : 0 < bs) :
    spacyExtractPeople nlp texts = texts.map (fun t => personsOfDoc (nlp t)) ∧
    scoreSentiment nlp texts = texts.map (fun t => (nlp t).polarity) ∧
    hfExtractPeople ner texts0 bs =
      (normalizeTexts texts0).map (fun t => hfPersonsOfDoc (ner t)) ∧
    extractSentiment chunksOf pred texts0 =
      (normalizeTexts texts0).map (scoreLongText chunksOf pred) ∧
    hfExtractPeople ner (Sum.inl s) bs = hfExtractPeople ner (Sum.inr [s]) bs ∧
    extractSentiment chunksOf pred (Sum.inl s) =
      extractSentiment chunksOf pred (Sum.inr [s]) := by
  refine ⟨?_, ?_, hfExtractPeople_eq_map ner texts0 bs hbs, rfl, ?_, rfl⟩
  · rw [spacyExtractPeople, foldl_append_singleton, List.nil_append, List.map_map]
    rfl
  · rw [scoreSentiment, foldl_append_singleton, List.nil_append, List.map_map]
    rfl
  · rw [hfExtractPeople_eq_map ner _ bs hbs, hfExtractPeople_eq_map ner _ bs hbs]
    rfl

/-- C8 witness: the spaCy `extract_people` and the Hugging Face `extract_people`
evaluated through the theorem at a concrete two-text input. -/
theorem c8_one_result_per_text_witness :
    spacyExtractPeople (fun t => ⟨[], [⟨"PERSON", t⟩], 0⟩) ["a", "b"] = [["a"], ["b"]] := by
  rw [(c8_one_result_per_text (fun t => ⟨[], [⟨"PERSON", t⟩], 0⟩) (fun _ => [])
    (fun t => [t]) (fun _ => ⟨"neutral", 1⟩) ["a", "b"] (Sum.inr []) "s" 1 (by decide)).1]
  rfl

/-! ## Which pipeline calls each function makes, as (input batch, batch_size) -/

/-- The texts comprehension of `count_tokens_pipe`:
`[article['text'] for article in articles if article.get('text') is not None]`. -/
def ctpTexts (articles : List Article) : List String :=
  (articles.filter (fun a => (pyGet a "text").isSome)).map (fun a => pyIndex a "text")

/-- The single `nlp.pipe(texts, ..., batch_size=batch_size)` call of
`count_tokens_pipe`, recorded as (texts, batch_size). -/
def countTokensPipeCalls (articles : List Article) (bs : Nat) :
    List (List String × Nat) :=
  [(ctpTexts articles, bs)]

/-- The single `nlp.pipe(texts, batch_size=batch_size, ...)` call of the spaCy
`extract_people`. -/
def spacyExtractPeopleCalls (texts : List String) (bs : Nat) :
    List (List String × Nat) :=
  [(texts, bs)]

/-- The single `nlp.pipe(texts, batch_size=batch_size, ...)` call of
`score_sentiment`. -/
def scoreSentimentCalls (texts : List String) (bs : Nat) :
    List (List String × Nat) :=
  [(texts, bs)]

/-- The `sentiment_pipeline(chunks, batch_size=batch_size)` calls made through
`extract_sentiment`: `_score_long_text` passes each text's tokenizer windows with
the `batch_size` argument unchanged. -/
def extractSentimentCalls (chunksOf : String → List String)
    (texts0 : String ⊕ List String) (bs : Nat) : List (List String × Nat) :=
  (normalizeTexts texts0).map (fun t => (chunksOf t, bs))

/-- The `ner_pipeline(batch, batch_size=len(batch), stride=stride)` calls of the
Hugging Face `extract_people`: one per slice `texts[start:start+batch_size]`. -/
def hfExtractPeopleCalls (texts0 : String ⊕ List String) (bs : Nat) :
    List (List String × Nat) :=
  (pyChunks bs (normalizeTexts texts0)).map (fun batch => (batch, batch.length))

/-- C3 (amended): `count_tokens_pipe`, the spaCy `extract_people`,
`score_sentiment` and `extract_sentiment` forward their `batch_size` argument
unmodified to every underlying pipeline call and pass their input texts through
without partitioning them; the Hugging Face `extract_people` instead partitions
the texts into consecutive slices of at most `batch_size` itself and passes each
slice's own length (not the parameter) as the pipeline's `batch_size`. -/
theorem c3_batch_size_forwarded (articles : List Article) (texts : List String)
    (chunksOf : String → List String) (texts0 : String ⊕ List String)
    (bs : Nat) (hbs : 0 < bs) :
    countTokensPipeCalls articles bs = [(ctpTexts articles, bs)] ∧
    spacyExtractPeopleCalls texts bs = [(texts, bs)] ∧
    scoreSentimentCalls texts bs = [(texts, bs)] ∧
    (∀ call ∈ extractSentimentCalls chunksOf texts0 bs, call.2 = bs) ∧
    ((hfExtractPeopleCalls texts0 bs).map Prod.fst).flatten = normalizeTexts texts0 ∧
    (∀ call ∈ hfExtractPeopleCalls texts0 bs,
      call.2 = call.1.length ∧ call.1.length ≤ bs) := by
  refine ⟨rfl, rfl, rfl, ?_, ?_, ?_⟩
  · intro call hcall
    rcases List.mem_map.mp hcall with ⟨t, _, rfl⟩
    rfl
  · rw [hfExtractPeopleCalls, List.map_map]
    have : (Prod.fst ∘ fun batch : List String => (batch, batch.length)) = id := rfl
    rw [this, List.map_id]
    exact pyChunks_flatten bs hbs _
  · intro call hcall
    rcases List.mem_map.mp hcall with ⟨batch, hbatch, rfl⟩
    exact ⟨rfl, pyChunks_mem_length bs hbs _ batch hbatch⟩

/-- C3 witness: the theorem applied at a concrete input, together with the
concrete second pipeline call of the Hugging Face `extract_people` that it
constrains. -/
theorem c3_batch_size_forwarded_witness :
    (∀ call ∈ hfExtractPeopleCalls (Sum.inr ["a", "b", "c"]) 2,
      call.2 = call.1.length ∧ call.1.length ≤ 2) ∧
    countTokensPipeCalls [] 2 = [(ctpTexts [], 2)] :=
  ⟨(c3_batch_size_forwarded [] ["a"] (fun t => [t]) (Sum.inr ["a", "b", "c"]) 2
      (by decide)).2.2.2.2.2,
   (c3_batch_size_forwarded [] ["a"] (fun t => [t]) (Sum.inr ["a", "b", "c"]) 2
      (by decide)).1⟩

/-- C3 counterexample: the Hugging Face `extract_people` on three texts with
`batch_size = 2` makes two pipeline calls — partitioning the input — and its
second call passes `batch_size = 1`, not the forwarded parameter `2`. -/
theorem c3_counterexample :
    hfExtractPeopleCalls (Sum.inr ["a", "b", "c"]) 2 = [(["a", "b"], 2), (["c"], 1)] ∧
    hfExtractPeopleCalls (Sum.inr ["a", "b", "c"]) 2 ≠ [(["a", "b", "c"], 2)] := by
  decide

/-! ## Bounds on the aggregated sentiment score -/

theorem list_sum_le_length (l : List ℚ) (h : ∀ x ∈ l, x ≤ 1) :
    l.sum ≤ (l.length : ℚ) := by
  induction l with
  | nil => simp
  | cons a l ih =>
    simp only [List.sum_cons, List.length_cons]
    push_cast
    have ha := h a (List.mem_cons_self a l)
    have hl := ih (fun x hx => h x (List.mem_cons_of_mem a hx))
    linarith

theorem list_neg_length_le_sum (l : List ℚ) (h : ∀ x ∈ l, -1 ≤ x) :
    -(l.length : ℚ) ≤ l.sum := by
  induction l with
  | nil => simp
  | cons a l ih =>
    simp only [List.sum_cons, List.length_cons]
    push_cast
    have ha := h a (List.mem_cons_self a l)
    have hl := ih (fun x hx => h x (List.mem_cons_of_mem a hx))
    linarith

theorem npMean_bounds (l : List ℚ) (h : ∀ x ∈ l, -1 ≤ x ∧ x ≤ 1) :
    -1 ≤ npMean l ∧ npMean l ≤ 1 := by
  rcases l with _ | ⟨a, t⟩
  · constructor <;> norm_num [npMean]
  · have hpos : (0 : ℚ) < ((a :: t).length : ℚ) := by
      simp only [List.length_cons]
      push_cast
      positivity
    constructor
    · rw [npMean, le_div_iff₀ hpos, neg_one_mul]
      exact list_neg_length_le_sum _ (fun x hx => (h x hx).1)
    · rw [npMean, div_le_one hpos]
      exact list_sum_le_length _ (fun x hx => (h x hx).2)

theorem signedScore_bounds (p : HfPred) (h0 : 0 ≤ p.score) (h1 : p.score ≤ 1) :
    -1 ≤ signedScore p ∧ signedScore p ≤ 1 := by
  unfold signedScore
  by_cases hp : (p.label.toLower == "positive") = true
  · rw [if_pos hp, mul_one]
    exact ⟨by linarith, h1⟩
  · rw [if_neg hp]
    by_cases hq : (p.label.toLower == "negative") = true
    · rw [if_pos hq]
      constructor <;> nlinarith
    · rw [if_neg hq, mul_zero]
      constructor <;> norm_num

/-- C10: if every prediction of the sentiment pipeline has a score in [0, 1],
then `_score_long_text` — the mean of the signed window scores, each weighted
+1 for a 'positive' label, -1 for 'negative' and 0 otherwise — lies in [-1, 1]
for every text, and hence so does every element returned by
`extract_sentiment`. -/
theorem c10_score_in_unit_interval (chunksOf : String → List String)
    (pred : String → HfPred)
    (h : ∀ c : String, 0 ≤ (pred c).score ∧ (pred c).score ≤ 1) :
    (∀ t : String,
      scoreLongText chunksOf pred t = npMean (((chunksOf t).map pred).map signedScore) ∧
      -1 ≤ scoreLongText chunksOf pred t ∧ scoreLongText chunksOf pred t ≤ 1) ∧
    (∀ (texts0 : String ⊕ List String) (x : ℚ),
      x ∈ extractSentiment chunksOf pred texts0 → -1 ≤ x ∧ x ≤ 1) := by
  have hbound : ∀ t : String,
      -1 ≤ scoreLongText chunksOf pred t ∧ scoreLongText chunksOf pred t ≤ 1 := by
    intro t
    refine npMean_bounds _ ?_
    intro x hx
    rcases List.mem_map.mp hx with ⟨p, hp, rfl⟩
    rcases List.mem_map.mp hp with ⟨c, _, rfl⟩
    exact signedScore_bounds (pred c) (h c).1 (h c).2
  refine ⟨fun t => ⟨rfl, hbound t⟩, ?_⟩
  intro texts0 x hx
  rcases List.mem_map.mp hx with ⟨t, _, rfl⟩
  exact hbound t

/-- C10 witness: the bound evaluated through the theorem for a concrete
single-window pipeline with score 1/2. -/
theorem c10_score_in_unit_interval_witness :
    -1 ≤ scoreLongText (fun t => [t]) (fun _ => ⟨"positive", 1/2⟩) "x" ∧
      scoreLongText (fun t => [t]) (fun _ => ⟨"positive", 1/2⟩) "x" ≤ 1 :=
  ((c10_score_in_unit_interval (fun t => [t]) (fun _ => ⟨"positive", 1/2⟩)
    (fun _ => by constructor <;> norm_num)).1 "x").2

/-- C4 (amended): the notebook helpers reshape single model calls, with two
exceptions the code adds itself: the Hugging Face `extract_people` filters the
model's entities, keeping exactly the PER entities whose stripped word is longer
than 5 characters, and `_score_long_text` windows its text and numerically
aggregates the per-window predictions as the mean of their signed scores. -/
theorem c4_reshaping_with_exceptions (doc : List HfEntity)
    (chunksOf : String → List String) (pred : String → HfPred) (t : String) :
    (∀ s : String, s ∈ hfPersonsOfDoc doc ↔
      ∃ e ∈ doc, e.entity_group = "PER" ∧ 5 < (pyStrip e.word).length ∧
        s = pyStrip e.word) ∧
    scoreLongText chunksOf pred t =
      (((chunksOf t).map pred).map signedScore).sum / ((chunksOf t).length : ℚ) := by
  constructor
  · intro s
    constructor
    · intro hs
      rcases List.mem_map.mp hs with ⟨e, he, rfl⟩
      rcases List.mem_filter.mp he with ⟨hmem, hcond⟩
      rcases Bool.and_eq_true_iff.mp hcond with ⟨h1, h2⟩
      exact ⟨e, hmem, beq_iff_eq.mp h1, of_decide_eq_true h2, rfl⟩
    · rintro ⟨e, hmem, h1, h2, rfl⟩
      refine List.mem_map.mpr ⟨e, List.mem_filter.mpr ⟨hmem, ?_⟩, rfl⟩
      rw [Bool.and_eq_true_iff]
      exact ⟨beq_iff_eq.mpr h1, decide_eq_true h2⟩
  · rw [scoreLongText, npMean]
    rw [List.length_map, List.length_map]

/-- C4 counterexample: the model reports a PER entity "Sam", but the Hugging
Face `extract_people` drops it (its stripped word is not longer than 5
characters), so the function does not merely reshape the model output: it
filters it. -/
theorem c4_counterexample :
    hfPersonsOfDoc [⟨"PER", "Sam"⟩] = [] ∧
    ¬ (∀ e ∈ [(⟨"PER", "Sam"⟩ : HfEntity)], e.entity_group = "PER" →
        pyStrip e.word ∈ hfPersonsOfDoc [⟨"PER", "Sam"⟩]) := by
  decide

/-! ## The person/sentiment DataFrame -/

/-- One row of the person/sentiment DataFrame: article_id | person | polarity. -/
structure PersonRow where
  article_id : Nat
  person : String
  polarity : ℚ
deriving DecidableEq

/-- The explode-to-long-form loop shared by both `build_person_sentiment_df`
definitions: `for art_id, names, pol in zip(article_ids, people_lists,
polarity_list): for name in names: records.append({...})`. -/
def buildRecords (triples : List (Nat × (List String × ℚ))) : List PersonRow :=
  triples.foldl
    (fun recs t => recs ++ t.2.1.map (fun n => PersonRow.mk t.1 n t.2.2)) []

/-- The spaCy `build_person_sentiment_df`. -/
def spacyBuildPersonSentimentDf (nlp : String → SpacyDoc) (articles : List Article)
    (key : String) (mr : Option Nat) : List PersonRow :=
  buildRecords ((spacySelect articles key mr).2.zip
    ((spacyExtractPeople nlp (spacySelect articles key mr).1).zip
      (scoreSentiment nlp (spacySelect articles key mr).1)))

/-- The Hugging Face `build_person_sentiment_df` (`extract_people` and
`extract_sentiment` are called with their default batch size 16). -/
def hfBuildPersonSentimentDf (ner : String → List HfEntity)
    (chunksOf : String → List String) (pred : String → HfPred)
    (articles : List Article) (key : String) (mr : Option Nat) : List PersonRow :=
  buildRecords ((hfSelect articles key mr).2.zip
    ((hfExtractPeople ner (Sum.inr (hfSelect articles key mr).1) 16).zip
      (extractSentiment chunksOf pred (Sum.inr (hfSelect articles key mr).1))))

theorem buildRecords_eq_flatten (triples : List (Nat × (List String × ℚ))) :
    buildRecords triples =
      (triples.map (fun t => t.2.1.map (fun n => PersonRow.mk t.1 n t.2.2))).flatten := by
  rw [buildRecords, foldl_append_blocks, List.nil_append]

theorem spacyExtractPeople_eq_map (nlp : String → SpacyDoc) (texts : List String) :
    spacyExtractPeople nlp texts = texts.map (fun t => personsOfDoc (nlp t)) := by
  rw [spacyExtractPeople, foldl_append_singleton, List.nil_append, List.map_map]
  rfl

theorem scoreSentiment_eq_map (nlp : String → SpacyDoc) (texts : List String) :
    scoreSentiment nlp texts = texts.map (fun t => (nlp t).polarity) := by
  rw [scoreSentiment, foldl_append_singleton, List.nil_append, List.map_map]
  rfl

theorem takeOpt_map {α β : Type _} (mr : Option Nat) (f : α → β) (l : List α) :
    takeOpt mr (l.map f) = (takeOpt mr l).map f := by
  cases mr <;> simp [takeOpt, List.map_take]

theorem spacySelect_eq_pairs (articles : List Article) (key : String) (mr : Option Nat) :
    spacySelect articles key mr =
      ((takeOpt mr (selPairs key articles.enum)).map Prod.snd,
       (takeOpt mr (selPairs key articles.enum)).map Prod.fst) := by
  rw [spacySelect, ← selPairs_snd, ← selPairs_fst, takeOpt_map, takeOpt_map]

/-- The `max_records` value the Hugging Face loop effectively enforces: falsy
values (`None` and `0`) never trigger the break. -/
def mrEffective (mr : Option Nat) : Option Nat :=
  if mrTruthy mr then mr else none

theorem hfSelect_eq_pairs (articles : List Article) (key : String) (mr : Option Nat) :
    hfSelect articles key mr =
      ((takeOpt (mrEffective mr) (selPairs key articles.enum)).map Prod.snd,
       (takeOpt (mrEffective mr) (selPairs key articles.enum)).map Prod.fst) := by
  cases mr with
  | none =>
    rw [hfSelect, hfSelectGo_not_truthy key none rfl]
    simp [mrEffective, mrTruthy, takeOpt]
  | some n =>
    by_cases hn : n = 0
    · subst hn
      rw [hfSelect, hfSelectGo_not_truthy key (some 0) rfl]
      simp [mrEffective, mrTruthy, takeOpt]
    · have hpos : 0 < n := Nat.pos_of_ne_zero hn
      rw [hfSelect, hfSelectGo_pos key n hpos articles.enum [] [] (by simpa using hpos)]
      have : mrEffective (some n) = some n := by
        simp [mrEffective, mrTruthy, hn]
      rw [this]
      simp [takeOpt]

theorem zip_maps_eq (pairs : List (Nat × String)) (f : String → List String)
    (g : String → ℚ) :
    (pairs.map Prod.fst).zip (((pairs.map Prod.snd).map f).zip
        ((pairs.map Prod.snd).map g)) =
      pairs.map (fun p => (p.1, (f p.2, g p.2))) := by
  induction pairs with
  | nil => rfl
  | cons p rest ih => simp only [List.map_cons, List.zip_cons_cons, ih]

theorem enumFrom_fst_le {α : Type _} :
    ∀ (l : List α) (j : Nat) (q : Nat × α), q ∈ List.enumFrom j l → j ≤ q.1
  | [], _, q, h => by simp [List.enumFrom] at h
  | a :: l, j, q, h => by
    rcases List.mem_cons.mp h with h | h
    · subst h; exact le_refl j
    · have := enumFrom_fst_le l (j + 1) q h
      omega

theorem enumFrom_fst_lt_pairwise {α : Type _} :
    ∀ (l : List α) (j : Nat),
      (List.enumFrom j l).Pairwise (fun p q => p.1 < q.1)
  | [], _ => List.Pairwise.nil
  | a :: l, j => by
    refine List.Pairwise.cons ?_ (enumFrom_fst_lt_pairwise l (j + 1))
    intro q hq
    have := enumFrom_fst_le l (j + 1) q hq
    omega

theorem mem_enumFrom_get {α : Type _} :
    ∀ (l : List α) (j i : Nat) (a : α),
      (i, a) ∈ List.enumFrom j l → j ≤ i ∧ l[i - j]? = some a
  | [], j, i, a, h => by simp [List.enumFrom] at h
  | b :: l, j, i, a, h => by
    rcases List.mem_cons.mp h with h | h
    · rw [Prod.mk.injEq] at h
      obtain ⟨rfl, rfl⟩ := h
      simp
    · obtain ⟨hle, hget⟩ := mem_enumFrom_get l (j + 1) i a h
      refine ⟨by omega, ?_⟩
      have hstep : i - j = (i - (j + 1)) + 1 := by omega
      rw [hstep, List.getElem?_cons_succ]
      exact hget

theorem pairs_fst_pairwise (articles : List Article) (key : String) (mr : Option Nat) :
    (takeOpt mr (selPairs key articles.enum)).Pairwise (fun p q => p.1 < q.1) := by
  have h1 : (articles.enum).Pairwise (fun p q : Nat × Article => p.1 < q.1) :=
    enumFrom_fst_lt_pairwise articles 0
  have h3 : (selPairs key articles.enum).Pairwise (fun p q => p.1 < q.1) := by
    rw [selPairs, List.pairwise_map]
    exact h1.filter _
  cases mr with
  | none => exact h3
  | some n => exact h3.sublist (List.take_sublist n _)

theorem pairs_origin (articles : List Article) (key : String) (mr : Option Nat)
    (i : Nat) (t : String) (h : (i, t) ∈ takeOpt mr (selPairs key articles.enum)) :
    ∃ a, articles[i]? = some a ∧ optTruthy (pyGet a key) = true ∧ t = pyIndex a key := by
  have hsel : (i, t) ∈ selPairs key articles.enum := by
    cases mr with
    | none => exact h
    | some n => exact List.take_subset n _ h
  rcases List.mem_map.mp hsel with ⟨p, hp, heq⟩
  rcases List.mem_filter.mp hp with ⟨hmem, hcond⟩
  rw [Prod.mk.injEq] at heq
  obtain ⟨h1, h2⟩ := heq
  obtain ⟨-, hget⟩ := mem_enumFrom_get articles 0 p.1 p.2
    (by rw [Prod.mk.eta]; exact hmem)
  subst h1
  exact ⟨p.2, by simpa using hget, hcond, h2.symm⟩

theorem filter_flatten_blocks (pairs : List (Nat × String))
    (g : Nat × String → List PersonRow)
    (hg : ∀ p : Nat × String, ∀ r ∈ g p, r.article_id = p.1) :
    ∀ (i : Nat) (t : String), pairs.Pairwise (fun p q => p.1 < q.1) →
      (i, t) ∈ pairs →
      ((pairs.map g).flatten).filter (fun r => r.article_id == i) = g (i, t) := by
  intro i t hpw hmem
  induction pairs with
  | nil => simp at hmem
  | cons p rest ih =>
    have hpwrest := List.Pairwise.of_cons hpw
    have hphead : ∀ q ∈ rest, p.1 < q.1 :=
      fun q hq => List.rel_of_pairwise_cons hpw hq
    rw [List.map_cons, List.flatten_cons, List.filter_append]
    rcases List.mem_cons.mp hmem with h | h
    · subst h
      have hself : (g (i, t)).filter (fun r => r.article_id == i) = g (i, t) := by
        refine List.filter_eq_self.mpr ?_
        intro r hr
        simpa using hg (i, t) r hr
      have hrest : (((rest.map g).flatten).filter (fun r => r.article_id == i)) = [] := by
        refine List.filter_eq_nil_iff.mpr ?_
        intro r hr
        rcases List.mem_flatten.mp hr with ⟨block, hblock, hrb⟩
        rcases List.mem_map.mp hblock with ⟨q, hq, rfl⟩
        have hlt : i < q.1 := hphead q hq
        have := hg q r hrb
        simp only [beq_iff_eq, this]
        omega
      rw [hself, hrest, List.append_nil]
    · have hne : (g p).filter (fun r => r.article_id == i) = [] := by
        refine List.filter_eq_nil_iff.mpr ?_
        intro r hr
        have hlt : p.1 < i := hphead (i, t) h
        have := hg p r hr
        simp only [beq_iff_eq, this]
        omega
      rw [hne, List.nil_append]
      exact ih hpwrest h

/-- The exploded rows produced from selected (index, text) pairs by per-text
people and sentiment functions. -/
def rowsOf (people : String → List String) (sent : String → ℚ)
    (pairs : List (Nat × String)) : List PersonRow :=
  (pairs.map (fun p => (people p.2).map (fun n => PersonRow.mk p.1 n (sent p.2)))).flatten

theorem spacyBuild_eq (nlp : String → SpacyDoc) (articles : List Article)
    (key : String) (mr : Option Nat) :
    spacyBuildPersonSentimentDf nlp articles key mr =
      rowsOf (fun t => personsOfDoc (nlp t)) (fun t => (nlp t).polarity)
        (takeOpt mr (selPairs key articles.enum)) := by
  rw [spacyBuildPersonSentimentDf, spacySelect_eq_pairs]
  simp only [spacyExtractPeople_eq_map, scoreSentiment_eq_map]
  rw [zip_maps_eq, buildRecords_eq_flatten, rowsOf, List.map_map]
  rfl

theorem hfBuild_eq (ner : String → List HfEntity) (chunksOf : String → List String)
    (pred : String → HfPred) (articles : List Article) (key : String)
    (mr : Option Nat) :
    hfBuildPersonSentimentDf ner chunksOf pred articles key mr =
      rowsOf (fun t => hfPersonsOfDoc (ner t)) (scoreLongText chunksOf pred)
        (takeOpt (mrEffective mr) (selPairs key articles.enum)) := by
  rw [hfBuildPersonSentimentDf, hfSelect_eq_pairs]
  simp only [hfExtractPeople_eq_map ner _ 16 (by norm_num), extractSentiment,
    normalizeTexts]
  rw [zip_maps_eq, buildRecords_eq_flatten, rowsOf, List.map_map]
  rfl

theorem rowsOf_shape (people : String → List String) (sent : String → ℚ)
    (articles : List Article) (key : String) (pairs : List (Nat × String))
    (hpw : pairs.Pairwise (fun p q => p.1 < q.1))
    (horig : ∀ i t, (i, t) ∈ pairs →
      ∃ a, articles[i]? = some a ∧ optTruthy (pyGet a key) = true ∧ t = pyIndex a key) :
    (∀ r ∈ rowsOf people sent pairs,
      ∃ a, articles[r.article_id]? = some a ∧ optTruthy (pyGet a key) = true ∧
        r.polarity = sent (pyIndex a key) ∧ r.person ∈ people (pyIndex a key)) ∧
    (∀ i t, (i, t) ∈ pairs →
      ((rowsOf people sent pairs).filter (fun r => r.article_id == i)).map
          (fun r => r.person) = people t ∧
      ∀ r ∈ (rowsOf people sent pairs).filter (fun r => r.article_id == i),
        r.polarity = sent t) ∧
    (∀ i, (∀ a, articles[i]? = some a → optTruthy (pyGet a key) = false) →
      (rowsOf people sent pairs).filter (fun r => r.article_id == i) = []) := by
  have h1 : ∀ r ∈ rowsOf people sent pairs,
      ∃ a, articles[r.article_id]? = some a ∧ optTruthy (pyGet a key) = true ∧
        r.polarity = sent (pyIndex a key) ∧ r.person ∈ people (pyIndex a key) := by
    intro r hr
    rcases List.mem_flatten.mp hr with ⟨block, hblock, hrb⟩
    rcases List.mem_map.mp hblock with ⟨p, hpp, rfl⟩
    rcases List.mem_map.mp hrb with ⟨n, hn, rfl⟩
    rcases horig p.1 p.2 (by rw [Prod.mk.eta]; exact hpp) with ⟨a, ha, htr, hidx⟩
    exact ⟨a, ha, htr, by rw [← hidx], by rw [← hidx]; exact hn⟩
  refine ⟨h1, ?_, ?_⟩
  · intro i t hmem
    have hg : ∀ p : Nat × String,
        ∀ r ∈ (people p.2).map (fun n => PersonRow.mk p.1 n (sent p.2)),
          r.article_id = p.1 := by
      intro p r hr
      rcases List.mem_map.mp hr with ⟨n, _, rfl⟩
      rfl
    have hfil := filter_flatten_blocks pairs
      (fun p => (people p.2).map (fun n => PersonRow.mk p.1 n (sent p.2))) hg i t hpw hmem
    rw [rowsOf, hfil]
    constructor
    · rw [List.map_map]
      exact List.map_id _
    · intro r hr
      rcases List.mem_map.mp hr with ⟨n, _, rfl⟩
      rfl
  · intro i hno
    refine List.filter_eq_nil_iff.mpr ?_
    intro r hr
    rcases h1 r hr with ⟨a, ha, htr, -, -⟩
    simp only [beq_iff_eq]
    intro hid
    rw [hid] at ha
    rw [hno a ha] at htr
    exact Bool.false_ne_true htr

/-- C5: both `build_person_sentiment_df` definitions return exactly one row per
person mention per selected article with non-empty text under `text_key`
(selection subject to `max_records`), each row's `article_id` is the article's
index in the original input list, each row carries the sentiment score of that
whole article, and articles with missing or empty text contribute no rows. -/
theorem c5_person_sentiment_rows (nlp : String → SpacyDoc)
    (ner : String → List HfEntity) (chunksOf : String → List String)
    (pred : String → HfPred) (articles : List Article) (key : String)
    (mr : Option Nat) :
    (∀ r ∈ spacyBuildPersonSentimentDf nlp articles key mr,
      ∃ a, articles[r.article_id]? = some a ∧ optTruthy (pyGet a key) = true ∧
        r.polarity = (nlp (pyIndex a key)).polarity ∧
        r.person ∈ personsOfDoc (nlp (pyIndex a key))) ∧
    (∀ i t, (i, t) ∈ takeOpt mr (selPairs key articles.enum) →
      ((spacyBuildPersonSentimentDf nlp articles key mr).filter
          (fun r => r.article_id == i)).map (fun r => r.person) =
        personsOfDoc (nlp t)) ∧
    (∀ i, (∀ a, articles[i]? = some a → optTruthy (pyGet a key) = false) →
      (spacyBuildPersonSentimentDf nlp articles key mr).filter
        (fun r => r.article_id == i) = []) ∧
    (∀ r ∈ hfBuildPersonSentimentDf ner chunksOf pred articles key mr,
      ∃ a, articles[r.article_id]? = some a ∧ optTruthy (pyGet a key) = true ∧
        r.polarity = scoreLongText chunksOf pred (pyIndex a key) ∧
        r.person ∈ hfPersonsOfDoc (ner (pyIndex a key))) ∧
    (∀ i t, (i, t) ∈ takeOpt (mrEffective mr) (selPairs key articles.enum) →
      ((hfBuildPersonSentimentDf ner chunksOf pred articles key mr).filter
          (fun r => r.article_id == i)).map (fun r => r.person) =
        hfPersonsOfDoc (ner t)) ∧
    (∀ i, (∀ a, articles[i]? = some a → optTruthy (pyGet a key) = false) →
      (hfBuildPersonSentimentDf ner chunksOf pred articles key mr).filter
        (fun r => r.article_id == i) = []) := by
  have hsp := rowsOf_shape (fun t => personsOfDoc (nlp t)) (fun t => (nlp t).polarity)
    articles key (takeOpt mr (selPairs key articles.enum))
    (pairs_fst_pairwise articles key mr) (pairs_origin articles key mr)
  have hhf := rowsOf_shape (fun t => hfPersonsOfDoc (ner t)) (scoreLongText chunksOf pred)
    articles key (takeOpt (mrEffective mr) (selPairs key articles.enum))
    (pairs_fst_pairwise articles key (mrEffective mr))
    (pairs_origin articles key (mrEffective mr))
  rw [spacyBuild_eq, hfBuild_eq]
  exact ⟨hsp.1, fun i t h => (hsp.2.1 i t h).1, hsp.2.2,
    hhf.1, fun i t h => (hhf.2.1 i t h).1, hhf.2.2⟩

/-- C5 witness: on one concrete article whose text is "x", with a model that
reports one PERSON "P", the rows with article_id 0 carry exactly that person. -/
theorem c5_person_sentiment_rows_witness :
    ((spacyBuildPersonSentimentDf (fun _ => ⟨[], [⟨"PERSON", "P"⟩], 0⟩)
        [[("text", "x")]] "text" none).filter
      (fun r => r.article_id == 0)).map (fun r => r.person) = ["P"] := by
  rw [(c5_person_sentiment_rows (fun _ => ⟨[], [⟨"PERSON", "P"⟩], 0⟩)
    (fun _ => []) (fun t => [t]) (fun _ => ⟨"neutral", 0⟩)
    [[("text", "x")]] "text" none).2.1 0 "x" (by decide)]
  rfl

/-! ## Error propagation in the geospatial loading step -/

/-- `pd.read_csv(..., on_bad_lines='skip')`: parse each line, silently dropping
the malformed ones — the only handling of malformed input in the notebooks. -/
def readCsvSkip {Row : Type _} (parse : String → Option Row) (lines : List String) :
    List Row :=
  lines.filterMap parse

/-- The download-then-read sequence of the geospatial notebook: the datasets are
fetched in order (city-wards, 311 service requests, short-term rentals) and the
two CSVs are read with `on_bad_lines='skip'`. There is no try/except anywhere,
so the steps are sequenced in the error monad: the first failing fetch aborts
the step with its error. -/
def loadDatasets {W Row : Type _} (wardsFetch : Except String W)
    (srFetch rentFetch : Except String (List String))
    (parseSr parseRent : String → Option Row) :
    Except String (W × List Row × List Row) := do
  let w ← wardsFetch
  let sr ← srFetch
  let rent ← rentFetch
  pure (w, readCsvSkip parseSr sr, readCsvSkip parseRent rent)

/-- C6: no operation catches an exception, retries, or substitutes a fallback:
an error in any fetch propagates unchanged as the error of the whole loading
step, and the only treatment of malformed input is `on_bad_lines='skip'`, which
drops unparseable CSV lines without raising or repairing them. -/
theorem c6_no_error_handling {W Row : Type _} (parseSr parseRent : String → Option Row) :
    (∀ (e : String) (srF rentF : Except String (List String)),
      loadDatasets (Except.error e : Except String W) srF rentF parseSr parseRent =
        Except.error e) ∧
    (∀ (w : W) (e : String) (rentF : Except String (List String)),
      loadDatasets (Except.ok w) (Except.error e) rentF parseSr parseRent =
        Except.error e) ∧
    (∀ (w : W) (sr : List String) (e : String),
      loadDatasets (Except.ok w) (Except.ok sr) (Except.error e) parseSr parseRent =
        Except.error e) ∧
    (∀ (w : W) (sr rent : List String),
      loadDatasets (Except.ok w) (Except.ok sr) (Except.ok rent) parseSr parseRent =
        Except.ok (w, sr.filterMap parseSr, rent.filterMap parseRent)) :=
  ⟨fun _ _ _ => rfl, fun _ _ _ => rfl, fun _ _ _ => rfl, fun _ _ _ => rfl⟩

/-! ## Frame: the functions do not mutate their input article collection -/

/-- The caller-visible environment of a notebook function: the article
collection object the function receives. -/
structure Env where
  articles : List Article
deriving DecidableEq

/-- `token_counter[lemma] += 1` on a Counter kept as an association list. -/
def counterAdd (cnt : List (String × Nat)) (k : String) : List (String × Nat) :=
  if cnt.any (fun kv => kv.1 == k) then
    cnt.map (fun kv => if kv.1 == k then (kv.1, kv.2 + 1) else kv)
  else cnt ++ [(k, 1)]

/-- The token loop of `count_tokens_pipe` for one document:
`if not token.is_stop and not token.is_punct and len(token.lemma_.strip()) > 0:
token_counter[token.lemma_] += 1`. -/
def ctpDocStep (cnt : List (String × Nat)) (doc : SpacyDoc) : List (String × Nat) :=
  doc.toks.foldl
    (fun cnt tok =>
      if !tok.is_stop && !tok.is_punct && decide (0 < (pyStrip tok.lemma_).length) then
        counterAdd cnt tok.lemma_
      else cnt) cnt

/-- The pure `count_tokens_pipe`: texts of the articles with non-None text,
piped through the model, tokens accumulated into a local Counter. -/
def countTokensPipe (nlp : String → SpacyDoc) (articles : List Article) :
    List (String × Nat) :=
  ((ctpTexts articles).map nlp).foldl ctpDocStep []

/-- The document loop of `count_tokens_pipe` threading the caller's environment
through every iteration. -/
def ctpLoop (nlp : String → SpacyDoc) :
    List String → List (String × Nat) × Env → List (String × Nat) × Env
  | [], s => s
  | t :: ts, s => ctpLoop nlp ts (ctpDocStep s.1 (nlp t), s.2)

/-- `count_tokens_pipe` with the environment threaded explicitly. -/
def countTokensPipeRun (nlp : String → SpacyDoc) (env : Env) :
    List (String × Nat) × Env :=
  ctpLoop nlp (ctpTexts env.articles) ([], env)

/-- The Hugging Face collection loop threading the caller's environment. -/
def hfSelectGoS (key : String) (mr : Option Nat) :
    List (Nat × Article) → List String → List Nat → Env →
      (List String × List Nat) × Env
  | [], texts, ids, env => ((texts, ids), env)
  | (i, a) :: rest, texts, ids, env =>
    if optTruthy (pyGet a key) then
      let texts := texts ++ [pyIndex a key]
      let ids := ids ++ [i]
      if mrTruthy mr && decide (mrVal mr ≤ texts.length) then ((texts, ids), env)
      else hfSelectGoS key mr rest texts ids env
    else hfSelectGoS key mr rest texts ids env

/-- The Hugging Face `build_person_sentiment_df` with the environment threaded
explicitly through its collection loop. -/
def hfBuildRun (ner : String → List HfEntity) (chunksOf : String → List String)
    (pred : String → HfPred) (key : String) (mr : Option Nat) (env : Env) :
    List PersonRow × Env :=
  ((buildRecords
      ((hfSelectGoS key mr env.articles.enum [] [] env).1.2.zip
        ((hfExtractPeople ner
            (Sum.inr (hfSelectGoS key mr env.articles.enum [] [] env).1.1) 16).zip
          (extractSentiment chunksOf pred
            (Sum.inr (hfSelectGoS key mr env.articles.enum [] [] env).1.1))))),
    (hfSelectGoS key mr env.articles.enum [] [] env).2)

theorem ctpLoop_spec (nlp : String → SpacyDoc) :
    ∀ (ts : List String) (c : List (String × Nat)) (env : Env),
      ctpLoop nlp ts (c, env) = ((ts.map nlp).foldl ctpDocStep c, env)
  | [], c, env => rfl
  | t :: ts, c, env => by
    rw [ctpLoop, ctpLoop_spec nlp ts (ctpDocStep c (nlp t)) env]
    rfl

theorem hfSelectGoS_spec (key : String) (mr : Option Nat) :
    ∀ (l : List (Nat × Article)) (ts : List String) (ids : List Nat) (env : Env),
      hfSelectGoS key mr l ts ids env = (hfSelectGo key mr l ts ids, env)
  | [], ts, ids, env => rfl
  | (i, a) :: rest, ts, ids, env => by
    by_cases h : optTruthy (pyGet a key) = true
    · by_cases hb : (mrTruthy mr && decide (mrVal mr ≤ (ts ++ [pyIndex a key]).length)) = true
      · simp only [hfSelectGoS, hfSelectGo, h, if_pos, hb, if_true]
      · simp only [hfSelectGoS, hfSelectGo, h, if_pos, hb, if_false,
          Bool.false_eq_true]
        exact hfSelectGoS_spec key mr rest (ts ++ [pyIndex a key]) (ids ++ [i]) env
    · simp only [hfSelectGoS, hfSelectGo, h, if_neg, Bool.false_eq_true,
        not_false_iff]
      exact hfSelectGoS_spec key mr rest ts ids env

/-- C7: `count_tokens_pipe` and the Hugging Face `build_person_sentiment_df`,
run with the caller's environment threaded through every loop iteration, leave
the input article collection unchanged and return exactly what the pure
embeddings compute; their only accumulation is into their own local
counter/lists. -/
theorem c7_no_input_mutation (nlp : String → SpacyDoc) (ner : String → List HfEntity)
    (chunksOf : String → List String) (pred : String → HfPred)
    (key : String) (mr : Option Nat) (env : Env) :
    (countTokensPipeRun nlp env).2 = env ∧
    (countTokensPipeRun nlp env).2.articles = env.articles ∧
    (countTokensPipeRun nlp env).1 = countTokensPipe nlp env.articles ∧
    (hfBuildRun ner chunksOf pred key mr env).2 = env ∧
    (hfBuildRun ner chunksOf pred key mr env).2.articles = env.articles ∧
    (hfBuildRun ner chunksOf pred key mr env).1 =
      hfBuildPersonSentimentDf ner chunksOf pred env.articles key mr := by
  have hc := ctpLoop_spec nlp (ctpTexts env.articles) [] env
  have hs := hfSelectGoS_spec key mr env.articles.enum [] [] env
  refine ⟨?_, ?_, ?_, ?_, ?_, ?_⟩
  · rw [countTokensPipeRun, hc]
  · rw [countTokensPipeRun, hc]
  · rw [countTokensPipeRun, hc]; rfl
  · rw [hfBuildRun, hs]
  · rw [hfBuildRun, hs]
  · rw [hfBuildRun, hs, hfBuildPersonSentimentDf, hfSelect]

/-! ## Ward-to-FSA apportioning -/

/-- Python's `c.startswith(p)`, over the character lists so that it evaluates by
kernel reduction. -/
def pyStartsWith (s p : String) : Bool :=
  p.data.isPrefixOf s.data

/-- A column is apportioned when its name starts with '311_' or 'STR_'
(`numeric_cols` in the notebook). -/
def isNumericCol (c : String) : Bool :=
  pyStartsWith c "311_" || pyStartsWith c "STR_"

/-- A row of `gdf_combined`: its ward number, its geometry's area
(`gdf_combined.geometry.area`), and its numeric columns as (name, value). -/
structure CombinedWard where
  wardNumber : Int
  wardGeomArea : ℚ
  cols : List (String × ℚ)
deriving DecidableEq

/-- One polygon of `gpd.overlay(gdf_combined, fsa_boundaries, how="intersection")`:
the index of the `gdf_combined` row it intersects, the FSA's CFSAUID, and the
intersection polygon's area (`ward_fsa.geometry.area`). The geometric overlay is
computed inside the GEOS library; its output is taken here as given data. -/
structure InterPiece where
  wardIdx : Nat
  cfsauid : String
  interArea : ℚ
deriving DecidableEq

/-- A row of `ward_fsa` right after the overlay: CFSAUID and the ward attributes
carried through, with `area_overlap = ward_fsa.geometry.area`. -/
structure WardFsaRow where
  cfsauid : String
  wardNumber : Int
  cols : List (String × ℚ)
  area_overlap : ℚ
deriving DecidableEq

/-- The overlay output: one row per intersection polygon, carrying the
originating ward row's attributes and the FSA's CFSAUID. -/
def overlayWardFsa (wards : List CombinedWard) (pieces : List InterPiece) :
    List WardFsaRow :=
  pieces.filterMap (fun p =>
    (wards[p.wardIdx]?).map (fun w =>
      WardFsaRow.mk p.cfsauid w.wardNumber w.cols p.interArea))

/-- The `ward_area` table lookup behind
`ward_fsa.merge(ward_area, on="Ward Number", how="left")`. -/
def lookupWardArea (wards : List CombinedWard) (wn : Int) : Option ℚ :=
  (wards.find? (fun w => w.wardNumber == wn)).map (fun w => w.wardGeomArea)

/-- A `ward_fsa` row after the merge: the overlay row plus `ward_area`. -/
structure MergedRow where
  cfsauid : String
  wardNumber : Int
  cols : List (String × ℚ)
  area_overlap : ℚ
  ward_area : ℚ
deriving DecidableEq

/-- The ward-area merge: every overlay row's ward number is present in the ward
table it came from, so the left merge is a lookup of the matching ward's area. -/
def mergeWardArea (wards : List CombinedWard) (rows : List WardFsaRow) :
    List MergedRow :=
  rows.filterMap (fun r =>
    (lookupWardArea wards r.wardNumber).map (fun A =>
      MergedRow.mk r.cfsauid r.wardNumber r.cols r.area_overlap A))

/-- `ward_fsa["area_frac"] = ward_fsa["area_overlap"] / ward_fsa["ward_area"]`. -/
def area_frac (r : MergedRow) : ℚ := r.area_overlap / r.ward_area

/-- The merged ward x FSA overlay: the overlay followed by the area merge. -/
def mergedWardFsa (wards : List CombinedWard) (pieces : List InterPiece) :
    List MergedRow :=
  mergeWardArea wards (overlayWardFsa wards pieces)

/-- A row of the apportioned frame kept for aggregation: CFSAUID plus the
scaled, `_apportioned`-suffixed numeric columns. -/
structure FsaRow where
  cfsauid : String
  apportioned : List (String × ℚ)
deriving DecidableEq

/-- `ward_fsa[numeric_cols].mul(ward_fsa["area_frac"], axis=0).add_suffix("_apportioned")`,
concatenated with the CFSAUID column. -/
def apportionRow (r : MergedRow) : FsaRow :=
  FsaRow.mk r.cfsauid
    ((r.cols.filter (fun cv => isNumericCol cv.1)).map
      (fun cv => (cv.1 ++ "_apportioned", cv.2 * area_frac r)))

/-- The fully apportioned ward x FSA frame. -/
def wardFsaApportioned (wards : List CombinedWard) (pieces : List InterPiece) :
    List FsaRow :=
  (mergedWardFsa wards pieces).map apportionRow

/-- The value of column c in an apportioned row (0 when absent; in the data the
column set is the same for every row). -/
def colValue (r : FsaRow) (c : String) : ℚ :=
  ((r.apportioned.find? (fun cv => cv.1 == c)).map (fun cv => cv.2)).getD 0

/-- `ward_fsa.drop(columns="geometry").groupby("CFSAUID").sum()` at column c for
the group of CFSAUID f. -/
def fsaAggValue (rows : List FsaRow) (f : String) (c : String) : ℚ :=
  ((rows.filter (fun r => r.cfsauid == f)).map (fun r => colValue r c)).sum

theorem mergedRow_origin (wards : List CombinedWard) (pieces : List InterPiece)
    (hnd : (wards.map (fun w => w.wardNumber)).Nodup) :
    ∀ r ∈ mergedWardFsa wards pieces, ∃ w ∈ wards,
      r.wardNumber = w.wardNumber ∧ r.ward_area = w.wardGeomArea ∧
      r.cols = w.cols := by
  intro r hr
  rcases List.mem_filterMap.mp hr with ⟨r0, hr0, hmap⟩
  rcases Option.map_eq_some'.mp hmap with ⟨A, hA, hrEq⟩
  rcases List.mem_filterMap.mp hr0 with ⟨p, hp, hmap0⟩
  rcases Option.map_eq_some'.mp hmap0 with ⟨w0, hw0, hr0Eq⟩
  have hw0mem : w0 ∈ wards := List.getElem?_mem hw0
  rcases Option.map_eq_some'.mp hA with ⟨wf, hwf, hAval⟩
  have hwfmem : wf ∈ wards := List.mem_of_find?_eq_some hwf
  have hwfnum : wf.wardNumber = r0.wardNumber := by
    have := List.find?_some hwf
    simpa using this
  have hr0num : r0.wardNumber = w0.wardNumber := by
    rw [← hr0Eq]
  have hwfw0 : wf = w0 :=
    List.inj_on_of_nodup_map hnd hwfmem hw0mem (by rw [hwfnum, hr0num])
  refine ⟨w0, hw0mem, ?_, ?_, ?_⟩
  · rw [← hrEq, ← hr0Eq]
  · rw [← hrEq, ← hAval, hwfw0]
  · rw [← hrEq, ← hr0Eq]

/-- C1: in the ward-to-FSA apportioning, every merged overlay row r comes from a
ward row w of `gdf_combined` with the same ward number, its merged `ward_area`
is that ward's polygon area, and for every '311_'/'STR_' column (c, v) of the
ward the apportioned frame holds the pair
(c ++ "_apportioned", v * (area of this intersection polygon / total ward area)). -/
theorem c1_apportioned_by_area_fraction (wards : List CombinedWard)
    (pieces : List InterPiece)
    (hnd : (wards.map (fun w => w.wardNumber)).Nodup) :
    ∀ r ∈ mergedWardFsa wards pieces, ∃ w ∈ wards,
      r.wardNumber = w.wardNumber ∧ r.ward_area = w.wardGeomArea ∧
      ∀ c v, (c, v) ∈ w.cols → isNumericCol c = true →
        (c ++ "_apportioned", v * (r.area_overlap / w.wardGeomArea)) ∈
          (apportionRow r).apportioned := by
  intro r hr
  obtain ⟨w, hw, hwn, harea, hcols⟩ := mergedRow_origin wards pieces hnd r hr
  refine ⟨w, hw, hwn, harea, ?_⟩
  intro c v hcv hnum
  rw [apportionRow]
  refine List.mem_map.mpr ⟨(c, v), ?_, ?_⟩
  · exact List.mem_filter.mpr ⟨by rw [hcols]; exact hcv, hnum⟩
  · rw [area_frac, harea]

/-- C1 witness: one ward of area 2 with a single 311 column of value 10, one
intersection piece of area 1: the merged row holds the apportioned pair. -/
theorem c1_apportioned_by_area_fraction_witness :
    ∃ w ∈ [CombinedWard.mk 1 2 [("311_X", 10)]],
      (MergedRow.mk "M1A" 1 [("311_X", 10)] 1 2).wardNumber = w.wardNumber ∧
      (MergedRow.mk "M1A" 1 [("311_X", 10)] 1 2).ward_area = w.wardGeomArea ∧
      ∀ c v, (c, v) ∈ w.cols → isNumericCol c = true →
        (c ++ "_apportioned",
          v * ((MergedRow.mk "M1A" 1 [("311_X", 10)] 1 2).area_overlap /
            w.wardGeomArea)) ∈
          (apportionRow (MergedRow.mk "M1A" 1 [("311_X", 10)] 1 2)).apportioned :=
  c1_apportioned_by_area_fraction [CombinedWard.mk 1 2 [("311_X", 10)]]
    [InterPiece.mk 0 "M1A" 1] (by decide)
    (MergedRow.mk "M1A" 1 [("311_X", 10)] 1 2) (by decide)

/-! ## Conservation of ward totals under apportioning -/

/-- The merged overlay rows that came from ward number wn. -/
def wardRows (rows : List MergedRow) (wn : Int) : List MergedRow :=
  rows.filter (fun r => r.wardNumber == wn)

/-- The total intersection area the overlay covers of ward wn. -/
def coveredArea (rows : List MergedRow) (wn : Int) : ℚ :=
  ((wardRows rows wn).map (fun r => r.area_overlap)).sum

/-- Ward wn's part of the groupby-sum for CFSAUID f at column c. -/
def wardContribution (rows : List MergedRow) (wn : Int) (f c : String) : ℚ :=
  (((wardRows rows wn).filter (fun r => r.cfsauid == f)).map
    (fun r => colValue (apportionRow r) c)).sum

/-- The distinct CFSAUIDs of the overlay — the groupby keys. -/
def distinctFsas (rows : List MergedRow) : List String :=
  (rows.map (fun r => r.cfsauid)).dedup

/-- Ward wn's contributions at column c summed over all FSA groups. -/
def wardTotal (rows : List MergedRow) (wn : Int) (c : String) : ℚ :=
  ((distinctFsas rows).map (fun f => wardContribution rows wn f c)).sum

theorem sum_map_filter_split {α : Type _} (p : α → Bool) (g : α → ℚ) :
    ∀ l : List α,
      ((l.filter p).map g).sum + ((l.filter (fun x => !p x)).map g).sum =
        (l.map g).sum
  | [] => by simp
  | x :: l => by
    have ih := sum_map_filter_split p g l
    cases hp : p x
    · simp only [List.filter_cons, hp, Bool.not_false, if_pos, Bool.false_eq_true,
        if_neg, not_false_iff, List.map_cons, List.sum_cons]
      linarith
    · simp only [List.filter_cons, hp, Bool.not_true, if_pos, Bool.false_eq_true,
        if_neg, not_false_iff, List.map_cons, List.sum_cons]
      linarith

theorem sum_groupby_keys {α κ : Type _} [DecidableEq κ] (key : α → κ) (g : α → ℚ) :
    ∀ (keys : List κ), keys.Nodup →
      ∀ (l : List α), (∀ x ∈ l, key x ∈ keys) →
        (keys.map (fun k => ((l.filter (fun x => key x == k)).map g).sum)).sum =
          (l.map g).sum
  | [], _, l, hl => by
    cases l with
    | nil => simp
    | cons a t => exact absurd (hl a (List.mem_cons_self a t)) (List.not_mem_nil _)
  | k :: ks, hnd, l, hl => by
    have hknotin : k ∉ ks := (List.nodup_cons.mp hnd).1
    have hndks : ks.Nodup := (List.nodup_cons.mp hnd).2
    have hterm : ∀ k' ∈ ks,
        l.filter (fun x => key x == k') =
          (l.filter (fun x => !(key x == k))).filter (fun x => key x == k') := by
      intro k' hk'
      rw [List.filter_filter]
      refine List.filter_congr ?_
      intro x hx
      cases hxk : (key x == k') with
      | false => simp
      | true =>
        have hk'nek : k' ≠ k := fun hEq => hknotin (hEq ▸ hk')
        have hxkk : (key x == k) = false := by
          rw [beq_eq_false_iff_ne]
          rw [beq_iff_eq] at hxk
          rw [hxk]
          exact hk'nek
        simp [hxkk]
    have hsub : ∀ x ∈ l.filter (fun x => !(key x == k)), key x ∈ ks := by
      intro x hx
      rcases List.mem_filter.mp hx with ⟨hxl, hxk⟩
      rcases List.mem_cons.mp (hl x hxl) with h | h
      · rw [h] at hxk
        simp at hxk
      · exact h
    have hmapeq :
        ks.map (fun k' => ((l.filter (fun x => key x == k')).map g).sum) =
          ks.map (fun k' =>
            (((l.filter (fun x => !(key x == k))).filter
              (fun x => key x == k')).map g).sum) :=
      List.map_congr_left (fun k' hk' => by rw [hterm k' hk'])
    rw [List.map_cons, List.sum_cons, hmapeq,
      sum_groupby_keys key g ks hndks (l.filter (fun x => !(key x == k))) hsub]
    exact sum_map_filter_split (fun x => key x == k) g l

theorem wardTotal_eq_sum (rows : List MergedRow) (wn : Int) (c : String) :
    wardTotal rows wn c =
      ((wardRows rows wn).map (fun r => colValue (apportionRow r) c)).sum := by
  refine sum_groupby_keys (fun r : MergedRow => r.cfsauid)
    (fun r => colValue (apportionRow r) c) (distinctFsas rows)
    (List.nodup_dedup _) (wardRows rows wn) ?_
  intro x hx
  exact List.mem_dedup.mpr (List.mem_map_of_mem _ (List.mem_of_mem_filter hx))

theorem string_append_inj (s1 s2 t : String) : (s1 ++ t == s2 ++ t) = (s1 == s2) := by
  by_cases h : s1 = s2
  · simp [h]
  · have hne : s1 ++ t ≠ s2 ++ t := by
      intro hEq
      apply h
      apply String.ext
      have hd : (s1 ++ t).data = (s2 ++ t).data := congrArg String.data hEq
      rw [String.data_append, String.data_append] at hd
      exact (List.append_left_inj t.data).mp hd
    simp [h, hne]

theorem find?_assoc_nodup {α : Type _} :
    ∀ (l : List (String × α)) (c : String) (v : α),
      (l.map Prod.fst).Nodup → (c, v) ∈ l →
      l.find? (fun cv => cv.1 == c) = some (c, v)
  | [], _, _, _, hm => absurd hm (List.not_mem_nil _)
  | (c', v') :: l, c, v, hnd, hm => by
    rw [List.map_cons, List.nodup_cons] at hnd
    rcases List.mem_cons.mp hm with h | h
    · rw [Prod.mk.injEq] at h
      obtain ⟨rfl, rfl⟩ := h
      exact List.find?_cons_of_pos _ (by simp)
    · have hc'c : c' ≠ c := by
        intro hEq
        apply hnd.1
        rw [hEq]
        exact List.mem_map.mpr ⟨(c, v), h, rfl⟩
      rw [List.find?_cons_of_neg _ (by simpa using hc'c)]
      exact find?_assoc_nodup l c v hnd.2 h

theorem colValue_apportionRow (r : MergedRow) (c : String) (v : ℚ)
    (hndc : (r.cols.map Prod.fst).Nodup) (hcv : (c, v) ∈ r.cols)
    (hnum : isNumericCol c = true) :
    colValue (apportionRow r) (c ++ "_apportioned") =
      v * (r.area_overlap / r.ward_area) := by
  have hfsub : ((r.cols.filter (fun cv => isNumericCol cv.1)).map Prod.fst).Nodup :=
    hndc.sublist ((List.filter_sublist r.cols).map Prod.fst)
  have hmem : ((c, v) : String × ℚ) ∈ r.cols.filter (fun cv => isNumericCol cv.1) :=
    List.mem_filter.mpr ⟨hcv, hnum⟩
  have hndmapped :
      (((r.cols.filter (fun cv => isNumericCol cv.1)).map
        (fun cv => (cv.1 ++ "_apportioned", cv.2 * area_frac r))).map Prod.fst).Nodup := by
    rw [List.map_map]
    have : (Prod.fst ∘ fun cv : String × ℚ =>
        (cv.1 ++ "_apportioned", cv.2 * area_frac r)) =
        (fun s => s ++ "_apportioned") ∘ Prod.fst := rfl
    rw [this, ← List.map_map]
    refine hfsub.map ?_
    intro a b hab
    have := congrArg String.data hab
    rw [String.data_append, String.data_append] at this
    exact String.ext ((List.append_left_inj _).mp this)
  have hfind := find?_assoc_nodup
    ((r.cols.filter (fun cv => isNumericCol cv.1)).map
      (fun cv => (cv.1 ++ "_apportioned", cv.2 * area_frac r)))
    (c ++ "_apportioned") (v * area_frac r) hndmapped
    (List.mem_map_of_mem _ hmem)
  rw [colValue, apportionRow]
  rw [hfind]
  rw [area_frac]
  rfl

theorem sum_map_mul_div (l : List MergedRow) (v A : ℚ) :
    (l.map (fun r => v * (r.area_overlap / A))).sum =
      v * (((l.map (fun r => r.area_overlap)).sum) / A) := by
  induction l with
  | nil => simp
  | cons r l ih =>
    rw [List.map_cons, List.sum_cons, ih, List.map_cons, List.sum_cons, add_div,
      mul_add]

theorem wardRows_value (wards : List CombinedWard) (pieces : List InterPiece)
    (hnd : (wards.map (fun w => w.wardNumber)).Nodup) (w : CombinedWard)
    (hw : w ∈ wards) (hndc : (w.cols.map Prod.fst).Nodup)
    (c : String) (v : ℚ) (hcv : (c, v) ∈ w.cols) (hnum : isNumericCol c = true) :
    ∀ r ∈ wardRows (mergedWardFsa wards pieces) w.wardNumber,
      colValue (apportionRow r) (c ++ "_apportioned") =
        v * (r.area_overlap / w.wardGeomArea) := by
  intro r hr
  rcases List.mem_filter.mp hr with ⟨hrm, hrw⟩
  obtain ⟨w0, hw0, hn0, ha0, hc0⟩ := mergedRow_origin wards pieces hnd r hrm
  have hrww : r.wardNumber = w.wardNumber := by simpa using hrw
  have hw0w : w0 = w :=
    List.inj_on_of_nodup_map hnd hw0 hw (by rw [← hn0, hrww])
  subst hw0w
  rw [colValue_apportionRow r c v (by rw [hc0]; exact hndc)
    (by rw [hc0]; exact hcv) hnum, ha0]

/-- C9: the apportioning conserves ward totals. For a ward w of positive area
and a '311_'/'STR_' column (c, v): the groupby-sum over CFSAUID decomposes per
group into the row sums, ward w's apportioned contributions summed over all FSA
groups equal v times the covered-area fraction, hence equal v exactly when the
intersections cover the ward's full area, and never exceed v for nonnegative v
when the covered area does not exceed the ward's area. -/
theorem c9_ward_totals_conserved (wards : List CombinedWard)
    (pieces : List InterPiece) (w : CombinedWard) (hw : w ∈ wards)
    (hnd : (wards.map (fun x => x.wardNumber)).Nodup)
    (hndc : (w.cols.map Prod.fst).Nodup)
    (c : String) (v : ℚ) (hcv : (c, v) ∈ w.cols) (hnum : isNumericCol c = true)
    (hA : 0 < w.wardGeomArea) :
    (∀ f : String,
      fsaAggValue (wardFsaApportioned wards pieces) f (c ++ "_apportioned") =
        (((mergedWardFsa wards pieces).filter (fun r => r.cfsauid == f)).map
          (fun r => colValue (apportionRow r) (c ++ "_apportioned"))).sum) ∧
    wardTotal (mergedWardFsa wards pieces) w.wardNumber (c ++ "_apportioned") =
      v * (coveredArea (mergedWardFsa wards pieces) w.wardNumber /
        w.wardGeomArea) ∧
    (coveredArea (mergedWardFsa wards pieces) w.wardNumber = w.wardGeomArea →
      wardTotal (mergedWardFsa wards pieces) w.wardNumber (c ++ "_apportioned") = v) ∧
    (0 ≤ v →
      coveredArea (mergedWardFsa wards pieces) w.wardNumber ≤ w.wardGeomArea →
      wardTotal (mergedWardFsa wards pieces) w.wardNumber (c ++ "_apportioned") ≤ v) := by
  have hmain :
      wardTotal (mergedWardFsa wards pieces) w.wardNumber (c ++ "_apportioned") =
        v * (coveredArea (mergedWardFsa wards pieces) w.wardNumber /
          w.wardGeomArea) := by
    rw [wardTotal_eq_sum,
      List.map_congr_left (wardRows_value wards pieces hnd w hw hndc c v hcv hnum),
      sum_map_mul_div]
    rfl
  refine ⟨?_, hmain, ?_, ?_⟩
  · intro f
    rw [fsaAggValue, wardFsaApportioned, List.filter_map, List.map_map]
    rfl
  · intro hcov
    rw [hmain, hcov, div_self (ne_of_gt hA), mul_one]
  · intro hv hcov
    rw [hmain]
    exact mul_le_of_le_one_right hv ((div_le_one hA).mpr hcov)

/-- C9 witness: one ward of area 2 and one column of value 10 with two
intersection pieces of area 1: the apportioned contributions summed over the
two FSA groups equal 10 times the covered-area fraction. -/
theorem c9_ward_totals_conserved_witness :
    wardTotal (mergedWardFsa [CombinedWard.mk 1 2 [("311_X", 10)]]
        [InterPiece.mk 0 "M1A" 1, InterPiece.mk 0 "M1B" 1]) 1
      ("311_X" ++ "_apportioned") =
      10 * (coveredArea (mergedWardFsa [CombinedWard.mk 1 2 [("311_X", 10)]]
        [InterPiece.mk 0 "M1A" 1, InterPiece.mk 0 "M1B" 1]) 1 / 2) :=
  (c9_ward_totals_conserved [CombinedWard.mk 1 2 [("311_X", 10)]]
    [InterPiece.mk 0 "M1A" 1, InterPiece.mk 0 "M1B" 1]
    (CombinedWard.mk 1 2 [("311_X", 10)]) (by decide) (by decide) (by decide)
    "311_X" 10 (by decide) (by decide) (by decide)).2.1

end Workshop
